import Mathlib

/-!
Verification of the tic-tac-toe engine in `src/tictactoe.js`.

The JavaScript board `origBoard` is an array of 9 entries; an entry is either
a number (the cell's own index, which marks the cell as empty) or the string
`'X'` / `'O'`.  We embed a board entry as `Cell`, a board as `List Cell`, and
translate each function of the source file.  The recursive `minimax` mutates
the shared board array and undoes every placement before returning; we embed
this by threading the board explicitly: `minimax` returns the move together
with the board as the call leaves it.  JavaScript recursion carries no fuel;
the embedding adds a fuel argument (`none` = fuel exhausted), which is
irrelevant whenever the fuel exceeds the number of empty cells.
-/

namespace TTT

inductive Player where
  | X
  | O
deriving DecidableEq

def Player.other : Player → Player
  | Player.X => Player.O
  | Player.O => Player.X

/-- A board entry: a number (an empty slot holding its index) or a mark. -/
inductive Cell where
  | num (n : Nat)
  | mark (p : Player)
deriving DecidableEq

abbrev Board := List Cell

/-- `const huPlayer = 'X'`. -/
def huPlayer : Player := Player.X

/-- `const aiPlayer = 'O'`. -/
def aiPlayer : Player := Player.O

/-- `const winCombos = [[0,1,2],[3,4,5],[6,7,8],[0,3,6],[1,4,7],[2,5,8],[0,4,8],[6,4,2]]`. -/
def winCombos : List (List Nat) :=
  [[0, 1, 2], [3, 4, 5], [6, 7, 8],
   [0, 3, 6], [1, 4, 7], [2, 5, 8],
   [0, 4, 8], [6, 4, 2]]

/-- `origBoard = Array.from(Array(9).keys())` in `startGame`: `[0,1,...,8]`. -/
def startBoard : Board := (List.range 9).map Cell.num

/-- The accumulator pass of `board.reduce((a, e, i) => (e === player) ? a.concat(i) : a, [])`:
collects, in increasing order, the indices whose entry is the player's mark;
`i` is the index of the head of the remaining list. -/
def playsAux (p : Player) : Board → Nat → List Nat
  | [], _ => []
  | c :: t, i => if c = Cell.mark p then i :: playsAux p t (i + 1) else playsAux p t (i + 1)

/-- `let plays = board.reduce((a, e, i) => (e === player) ? a.concat(i) : a, [])`. -/
def plays (b : Board) (p : Player) : List Nat := playsAux p b 0

/-- The `for (let [index, win] of winCombos.entries())` loop of `checkWin`:
returns the index of the first combo all of whose cells are in `pl`
(`win.every(elem => plays.indexOf(elem) > -1)`), `none` if no combo matches. -/
def checkWinAux (pl : List Nat) : List (List Nat) → Nat → Option Nat
  | [], _ => none
  | w :: rest, i =>
      if w.all (fun e => decide (e ∈ pl)) then some i else checkWinAux pl rest (i + 1)

/-- `checkWin(board, player)`: `some i` embeds the JS result `{index: i, player}`,
`none` embeds `null`. -/
def checkWin (b : Board) (p : Player) : Option Nat :=
  checkWinAux (plays b p) winCombos 0

/-- `emptySquares()` — `origBoard.filter(s => typeof s === 'number')`.
The JS function declares no parameter: it always reads the module-level
`origBoard`, so `g` here is the global board, never a caller's argument. -/
def emptySquares (g : Board) : List Nat :=
  g.filterMap fun c => match c with
    | Cell.num n => some n
    | Cell.mark _ => none

/-- The object `{index, score}` built by `minimax`; the terminal returns
`{score: s}` leave `index` undefined, embedded as `none`. -/
structure Move where
  index : Option Cell
  score : Int
deriving DecidableEq

/-- One step of the best-move scan: JS keeps the first candidate whose score is
strictly `better` than the best score recorded so far (`bestScore` starts at
±Infinity, so the first candidate always replaces the initial accumulator). -/
def stepBest (better : Int → Int → Bool) (acc : Option Move) (m : Move) : Option Move :=
  match acc with
  | none => some m
  | some bm => if better m.score bm.score then some m else acc

/-- The two selection loops at the end of `minimax`: the maximizer keeps the
first move with `score > bestScore`, the minimizer the first with
`score < bestScore`. -/
def selectBest (player : Player) (moves : List Move) : Option Move :=
  if player = aiPlayer then
    moves.foldl (stepBest fun a b => decide (b < a)) none
  else
    moves.foldl (stepBest fun a b => decide (a < b)) none

/-- The `for (let i = 0; i < availSpots.length; i++)` loop of `minimax`:
for each spot `n`, record the stored value (`move.index = newBoard[availSpots[i]]`),
place the player's mark, recurse with the other player (`mm`), undo the
placement (`newBoard[availSpots[i]] = move.index`), and push the move.
The board is threaded to mirror the mutation of the shared array; the `getD`
default is never read on a board whose stored numbers are in range. -/
def minimaxLoop (mm : Board → Player → Option (Move × Board)) (player : Player) :
    List Nat → Board → Option (List Move × Board)
  | [], b => some ([], b)
  | n :: rest, b =>
      let oldv := b.getD n (Cell.num n)
      match mm (b.set n (Cell.mark player)) player.other with
      | none => none
      | some (res, b2) =>
          match minimaxLoop mm player rest (b2.set n oldv) with
          | none => none
          | some (ms, b3) => some (⟨some oldv, res.score⟩ :: ms, b3)

/-- `minimax(newBoard, player)` for the call `minimax(origBoard, aiPlayer)`:
since `bestSpot` passes the global board itself, `emptySquares()`'s read of
the global board and the mutations of `newBoard` hit one and the same array,
embedded here as the single board `b`. -/
def minimax : Nat → Board → Player → Option (Move × Board)
  | 0, _, _ => none
  | fuel + 1, b, player =>
      let availSpots := emptySquares b
      if (checkWin b huPlayer).isSome then some (⟨none, -10⟩, b)
      else if (checkWin b aiPlayer).isSome then some (⟨none, 10⟩, b)
      else if availSpots.length = 0 then some (⟨none, 0⟩, b)
      else
        match minimaxLoop (minimax fuel) player availSpots b with
        | none => none
        | some (ms, b') =>
            match selectBest player ms with
            | none => none
            | some m => some (m, b')

/-- The JS function `emptySquares(newBoard)` as called from `minimax`: the
declared function takes no parameter, so the caller's argument `arg` is bound
to nothing and the body reads the global board `g`. -/
def emptySquaresCalled (g : Board) (_arg : Board) : List Nat :=
  emptySquares g

/-- `minimax` as it would run if its argument were an independent copy of the
global board rather than the global array itself: `emptySquares()` keeps
reading the (then never-mutated) global `g`, while placements and terminal
checks act on the copy `b`. -/
def minimaxCopy : Nat → Board → Board → Player → Option (Move × Board)
  | 0, _, _, _ => none
  | fuel + 1, g, b, player =>
      let availSpots := emptySquares g
      if (checkWin b huPlayer).isSome then some (⟨none, -10⟩, b)
      else if (checkWin b aiPlayer).isSome then some (⟨none, 10⟩, b)
      else if availSpots.length = 0 then some (⟨none, 0⟩, b)
      else
        match minimaxLoop (minimaxCopy fuel g) player availSpots b with
        | none => none
        | some (ms, b') =>
            match selectBest player ms with
            | none => none
            | some m => some (m, b')

/-- Any fuel strictly larger than the 9 cells of a real board; with it the
fueled recursion never runs out on a reachable board. -/
def searchFuel : Nat := 10

/-- `bestSpot()` — `minimax(origBoard, aiPlayer).index`, together with the
board as `minimax` leaves it. -/
def bestSpot (b : Board) : Option (Option Cell × Board) :=
  match minimax searchFuel b aiPlayer with
  | some (m, b') => some (m.index, b')
  | none => none

/-- The observable game state: the board array and the `gameActive` flag
(the DOM — cell text, colors, messages — is presentation and out of scope). -/
structure GState where
  board : Board
  gameActive : Bool
deriving DecidableEq

/-- `turn(squareId, player)`: writes the mark, then `gameOver` on a win
(`gameActive = false`), else `checkTie` (`gameActive = false` on a full
board), else leaves `gameActive` as it was. -/
def turn (s : GState) (i : Nat) (p : Player) : GState :=
  let b := s.board.set i (Cell.mark p)
  if (checkWin b p).isSome then ⟨b, false⟩
  else if (emptySquares b).length = 0 then ⟨b, false⟩
  else ⟨b, s.gameActive⟩

/-- `typeof origBoard[i] === 'number'` — out-of-range reads give `undefined`,
which is not a number, hence `false`. -/
def isNumberCell : Option Cell → Bool
  | some (Cell.num _) => true
  | _ => false

/-- `turnClick(square)` for a click on cell `i`, together with the AI reply it
schedules: if the game is active and the slot holds a number, the human plays
`turn(i, huPlayer)`; if the game is still active, `turn(bestSpot(), aiPlayer)`
runs. A rejected click changes nothing. `bestSpot()` always yields the stored
number of an empty cell on the boards this transition can see, so the
fall-through arms (which keep the state of the human's move) are never taken
from a reachable state. -/
def turnClick (s : GState) (i : Nat) : GState :=
  if s.gameActive && isNumberCell (s.board.get? i) then
    let s1 := turn s i huPlayer
    if s1.gameActive then
      match minimax searchFuel s1.board aiPlayer with
      | some (m, b') =>
          match m.index with
          | some (Cell.num n) => turn ⟨b', s1.gameActive⟩ n aiPlayer
          | _ => s1
      | none => s1
    else s1
  else s

/-- States reachable from a fresh game (`startGame`) by click-driven turns. -/
inductive Reach : GState → Prop where
  | start : Reach ⟨startBoard, true⟩
  | click (s : GState) (i : Nat) : Reach s → Reach (turnClick s i)

/-- Number of marks of player `p` on the board. -/
def countMark (b : Board) (p : Player) : Nat := b.count (Cell.mark p)

/-- The representation invariant of the board encoding: a stored number always
equals the index of the cell that stores it (so a cell is empty exactly when
it holds its own index, and `emptySquares` lists empty positions). -/
def ReprInv (b : Board) : Prop :=
  ∀ j k, b.get? j = some (Cell.num k) → k = j

/-- The spec's enumeration of the 8 win lines, written with the second
diagonal as `(2,4,6)` (the source stores it as `[6,4,2]`). -/
def specWinLines : List (List Nat) :=
  [[0, 1, 2], [3, 4, 5], [6, 7, 8],
   [0, 3, 6], [1, 4, 7], [2, 5, 8],
   [0, 4, 8], [2, 4, 6]]

/-- The spec scenario board `[X,X,Empty,O,O,Empty,Empty,Empty,Empty]` with the
empty cells holding their indices, as the engine represents them. -/
def scenarioBoard : Board :=
  [Cell.mark Player.X, Cell.mark Player.X, Cell.num 2,
   Cell.mark Player.O, Cell.mark Player.O, Cell.num 5,
   Cell.num 6, Cell.num 7, Cell.num 8]

/-- A board with a single empty cell (index 1) on which no completion of that
cell wins for either player: `X _ O / O O X / X X O`. -/
def bDiv : Board :=
  [Cell.mark Player.X, Cell.num 1, Cell.mark Player.O,
   Cell.mark Player.O, Cell.mark Player.O, Cell.mark Player.X,
   Cell.mark Player.X, Cell.mark Player.X, Cell.mark Player.O]

/-- `bDiv` with cell 1 overwritten by X. -/
def bDivX : Board :=
  [Cell.mark Player.X, Cell.mark Player.X, Cell.mark Player.O,
   Cell.mark Player.O, Cell.mark Player.O, Cell.mark Player.X,
   Cell.mark Player.X, Cell.mark Player.X, Cell.mark Player.O]

/-- `bDiv` with cell 1 overwritten by O. -/
def bDivO : Board :=
  [Cell.mark Player.X, Cell.mark Player.O, Cell.mark Player.O,
   Cell.mark Player.O, Cell.mark Player.O, Cell.mark Player.X,
   Cell.mark Player.X, Cell.mark Player.X, Cell.mark Player.O]

/-- A board where the human has completed row 0. -/
def bWinX : Board :=
  [Cell.mark Player.X, Cell.mark Player.X, Cell.mark Player.X,
   Cell.mark Player.O, Cell.mark Player.O, Cell.num 5,
   Cell.num 6, Cell.num 7, Cell.num 8]

/-- A board where the AI has completed row 0 and the human has no win. -/
def bWinO : Board :=
  [Cell.mark Player.O, Cell.mark Player.O, Cell.mark Player.O,
   Cell.mark Player.X, Cell.mark Player.X, Cell.num 5,
   Cell.num 6, Cell.num 7, Cell.num 8]

/-- The inductive invariant of reachable game states: the representation
invariant holds, the board has 9 cells, mark counts are balanced (X leads by
0 or 1), and an active game has equal counts and no completed win line. -/
def GoodState (s : GState) : Prop :=
  ReprInv s.board ∧ s.board.length = 9 ∧
  countMark s.board aiPlayer ≤ countMark s.board huPlayer ∧
  countMark s.board huPlayer ≤ countMark s.board aiPlayer + 1 ∧
  (s.gameActive = true →
    countMark s.board huPlayer = countMark s.board aiPlayer ∧
    checkWin s.board huPlayer = none ∧ checkWin s.board aiPlayer = none)

/-! ### Basic board lemmas -/

theorem board_set_getD (b : Board) (n : Nat) (d : Cell) : b.set n (b.getD n d) = b := by
  induction b generalizing n with
  | nil => rfl
  | cons c t ih =>
      cases n with
      | zero => rfl
      | succ m => exact congrArg (c :: ·) (ih m)

theorem board_set_of_get? {b : Board} {n : Nat} {v : Cell} (h : b.get? n = some v) :
    b.set n v = b := by
  induction b generalizing n with
  | nil => cases h
  | cons c t ih =>
      cases n with
      | zero =>
          injection h with h
          rw [← h]
          rfl
      | succ m => exact congrArg (c :: ·) (ih h)

theorem board_getD_of_get? {b : Board} {n : Nat} {v : Cell} (h : b.get? n = some v) (d : Cell) :
    b.getD n d = v := by
  rw [List.getD_eq_getD_get?, h]
  rfl

theorem board_get?_set_self {b : Board} {n : Nat} (h : n < b.length) (v : Cell) :
    (b.set n v).get? n = some v := by
  induction b generalizing n with
  | nil => cases h
  | cons c t ih =>
      cases n with
      | zero => rfl
      | succ m => exact ih (Nat.lt_of_succ_lt_succ h)

theorem board_get?_set_ne (b : Board) {n j : Nat} (h : j ≠ n) (v : Cell) :
    (b.set n v).get? j = b.get? j := by
  induction b generalizing n j with
  | nil => rfl
  | cons c t ih =>
      cases n with
      | zero =>
          cases j with
          | zero => exact absurd rfl h
          | succ i => rfl
      | succ m =>
          cases j with
          | zero => rfl
          | succ i => exact ih fun e => h (congrArg Nat.succ e)

/-! ### Restoration: the undo step of `minimax` puts the board back -/

/-- If every recursive call restores the board it is given, then one pass of
the move-collection loop restores the board it started from. -/
theorem minimaxLoop_restore
    {mm : Board → Player → Option (Move × Board)}
    (hmm : ∀ b q r bb, mm b q = some (r, bb) → bb = b) (p : Player) :
    ∀ (spots : List Nat) (b : Board) (ms : List Move) (b' : Board),
      minimaxLoop mm p spots b = some (ms, b') → b' = b := by
  intro spots
  induction spots with
  | nil =>
      intro b ms b' h
      injection h with h
      injection h with _ h
      exact h.symm
  | cons n rest ih =>
      intro b ms b' h
      simp only [minimaxLoop] at h
      split at h
      · cases h
      · next res b2 hrec =>
          split at h
          · cases h
          · next ms3 b3 hloop =>
              injection h with h
              injection h with _ h
              have hb2 : b2 = b.set n (Cell.mark p) := hmm _ _ _ _ hrec
              have hrest : b2.set n (b.getD n (Cell.num n)) = b := by
                rw [hb2, List.set_set, board_set_getD]
              rw [← h, ih _ _ _ hloop, hrest]

/-- Every hypothetical placement of `minimax` is undone before returning:
whenever the search yields a result, the board it hands back is the board it
was given. -/
theorem minimax_restore :
    ∀ (fuel : Nat) (b : Board) (p : Player) (m : Move) (b' : Board),
      minimax fuel b p = some (m, b') → b' = b := by
  intro fuel
  induction fuel with
  | zero => intro b p m b' h; cases h
  | succ fuel ih =>
      intro b p m b' h
      simp only [minimax] at h
      split at h
      · injection h with h
        injection h with _ h
        exact h.symm
      · split at h
        · injection h with h
          injection h with _ h
          exact h.symm
        · split at h
          · injection h with h
            injection h with _ h
            exact h.symm
          · split at h
            · cases h
            · next ms b2 hloop =>
                split at h
                · cases h
                · injection h with h
                  injection h with _ h
                  rw [← h]
                  exact minimaxLoop_restore (fun bb q r b3 hc => ih bb q r b3 hc) p
                    (emptySquares b) b ms b2 hloop

/-! ### Characterizing `plays` and `checkWin` -/

theorem mem_playsAux (p : Player) :
    ∀ (b : Board) (off j : Nat),
      j ∈ playsAux p b off ↔ ∃ i, b.get? i = some (Cell.mark p) ∧ j = i + off := by
  intro b
  induction b with
  | nil =>
      intro off j
      constructor
      · intro h; cases h
      · rintro ⟨i, hi, _⟩; cases hi
  | cons c t ih =>
      intro off j
      by_cases hc : c = Cell.mark p
      · simp only [playsAux, if_pos hc, List.mem_cons]
        rw [ih (off + 1) j]
        constructor
        · rintro (h | ⟨i, hi, hj⟩)
          · exact ⟨0, by simp [hc], by omega⟩
          · exact ⟨i + 1, hi, by omega⟩
        · rintro ⟨i, hi, hj⟩
          cases i with
          | zero => exact Or.inl (by omega)
          | succ i' => exact Or.inr ⟨i', hi, by omega⟩
      · simp only [playsAux, if_neg hc]
        rw [ih (off + 1) j]
        constructor
        · rintro ⟨i, hi, hj⟩
          exact ⟨i + 1, hi, by omega⟩
        · rintro ⟨i, hi, hj⟩
          cases i with
          | zero =>
              injection hi with hi
              exact absurd hi hc
          | succ i' => exact ⟨i', hi, by omega⟩

/-- A cell index is among the player's plays exactly when the board stores the
player's mark there. -/
theorem mem_plays {b : Board} {p : Player} {j : Nat} :
    j ∈ plays b p ↔ b.get? j = some (Cell.mark p) := by
  rw [plays, mem_playsAux]
  constructor
  · rintro ⟨i, hi, hj⟩
    have : i = j := by omega
    rwa [this] at hi
  · intro h
    exact ⟨j, h, rfl⟩

theorem checkWinAux_isSome (pl : List Nat) :
    ∀ (ws : List (List Nat)) (off : Nat),
      (checkWinAux pl ws off).isSome ↔ ∃ w ∈ ws, ∀ e ∈ w, e ∈ pl := by
  intro ws
  induction ws with
  | nil =>
      intro off
      simp [checkWinAux]
  | cons w rest ih =>
      intro off
      by_cases hw : w.all (fun e => decide (e ∈ pl)) = true
      · simp only [checkWinAux, if_pos hw, Option.isSome_some, true_iff]
        refine ⟨w, List.mem_cons_self w rest, ?_⟩
        intro e he
        simpa using List.all_eq_true.1 hw e he
      · simp only [checkWinAux, if_neg hw]
        rw [ih (off + 1)]
        constructor
        · rintro ⟨w', hw', he⟩
          exact ⟨w', List.mem_cons_of_mem w hw', he⟩
        · rintro ⟨w', hw', he⟩
          rcases List.mem_cons.1 hw' with rfl | hmem
          · exact absurd (List.all_eq_true.2 fun e hee => by simpa using he e hee) hw
          · exact ⟨w', hmem, he⟩

theorem checkWinAux_eq_some (pl : List Nat) :
    ∀ (ws : List (List Nat)) (off i : Nat), checkWinAux pl ws off = some i →
      ∃ k, i = off + k ∧
        (∃ w, ws.get? k = some w ∧ ∀ e ∈ w, e ∈ pl) ∧
        (∀ j wj, j < k → ws.get? j = some wj → ∃ e ∈ wj, ¬ e ∈ pl) := by
  intro ws
  induction ws with
  | nil => intro off i h; cases h
  | cons w rest ih =>
      intro off i h
      by_cases hw : w.all (fun e => decide (e ∈ pl)) = true
      · simp only [checkWinAux, if_pos hw] at h
        injection h with h
        refine ⟨0, by omega, ⟨w, rfl, ?_⟩, ?_⟩
        · intro e he
          simpa using List.all_eq_true.1 hw e he
        · intro j wj hj _
          cases hj
      · simp only [checkWinAux, if_neg hw] at h
        obtain ⟨k, hk, hwin, hprior⟩ := ih (off + 1) i h
        refine ⟨k + 1, by omega, hwin, ?_⟩
        intro j wj hj hget
        cases j with
        | zero =>
            injection hget with hget
            subst hget
            have hw' : w.all (fun e => decide (e ∈ pl)) = false := Bool.eq_false_iff.2 hw
            obtain ⟨e, he, hne⟩ := List.all_eq_false.1 hw'
            exact ⟨e, he, fun hmem => hne (by simpa using hmem)⟩
        | succ j' => exact hprior j' wj (Nat.lt_of_succ_lt_succ hj) hget

/-- `checkWin b p` succeeds exactly when some win combo is fully marked by `p`. -/
theorem checkWin_isSome_iff {b : Board} {p : Player} :
    (checkWin b p).isSome ↔
      ∃ w ∈ winCombos, ∀ e ∈ w, b.get? e = some (Cell.mark p) := by
  rw [checkWin, checkWinAux_isSome]
  constructor
  · rintro ⟨w, hw, he⟩
    exact ⟨w, hw, fun e hee => mem_plays.1 (he e hee)⟩
  · rintro ⟨w, hw, he⟩
    exact ⟨w, hw, fun e hee => mem_plays.2 (he e hee)⟩

/-- When `checkWin` answers `some i`, combo `i` is fully marked and every
earlier combo has an unmarked cell: the first match wins. -/
theorem checkWin_eq_some {b : Board} {p : Player} {i : Nat} (h : checkWin b p = some i) :
    (∃ w, winCombos.get? i = some w ∧ ∀ e ∈ w, b.get? e = some (Cell.mark p)) ∧
      (∀ j wj, j < i → winCombos.get? j = some wj →
        ∃ e ∈ wj, b.get? e ≠ some (Cell.mark p)) := by
  obtain ⟨k, hk, ⟨w, hget, hall⟩, hprior⟩ := checkWinAux_eq_some (plays b p) winCombos 0 i h
  have hik : i = k := by omega
  subst hik
  constructor
  · exact ⟨w, hget, fun e he => mem_plays.1 (hall e he)⟩
  · intro j wj hj hgj
    obtain ⟨e, he, hne⟩ := hprior j wj hj hgj
    exact ⟨e, he, fun hc => hne (mem_plays.2 hc)⟩

/-! ### `emptySquares` and the representation invariant -/

theorem mem_emptySquares {b : Board} {n : Nat} : n ∈ emptySquares b ↔ Cell.num n ∈ b := by
  constructor
  · intro h
    obtain ⟨c, hc, he⟩ := List.mem_filterMap.1 h
    cases c with
    | num m =>
        injection he with he
        rw [← he]
        exact hc
    | mark p => cases he
  · intro h
    exact List.mem_filterMap.2 ⟨Cell.num n, h, rfl⟩

/-- Under the representation invariant, a member of `emptySquares` is the
index of a cell that stores its own number. -/
theorem emptySquares_pos {b : Board} (hb : ReprInv b) {n : Nat} (h : n ∈ emptySquares b) :
    b.get? n = some (Cell.num n) := by
  obtain ⟨j, hj⟩ := List.mem_iff_get?.1 (mem_emptySquares.1 h)
  have hnj := hb j n hj
  rw [← hnj] at hj
  exact hj

theorem reprInv_set_mark {b : Board} (hb : ReprInv b) (n : Nat) (p : Player) :
    ReprInv (b.set n (Cell.mark p)) := by
  intro j k h
  by_cases hj : j = n
  · subst hj
    by_cases hlen : j < b.length
    · rw [board_get?_set_self hlen] at h
      cases h
    · rw [List.set_eq_of_length_le (Nat.le_of_not_lt hlen)] at h
      exact hb j k h
  · rw [board_get?_set_ne b hj] at h
    exact hb j k h

/-- Marking an empty cell removes exactly one entry from `emptySquares`. -/
theorem emptySquares_set_mark :
    ∀ (b : Board) (n : Nat) (p : Player) (k : Nat), b.get? n = some (Cell.num k) →
      (emptySquares (b.set n (Cell.mark p))).length + 1 = (emptySquares b).length := by
  intro b
  induction b with
  | nil => intro n p k h; cases h
  | cons c t ih =>
      intro n p k h
      cases n with
      | zero =>
          injection h with h
          subst h
          simp [emptySquares, List.filterMap_cons]
      | succ m =>
          have hih := ih m p k h
          cases c with
          | num j =>
              simp only [List.set, emptySquares, List.filterMap_cons] at hih ⊢
              simpa using hih
          | mark q =>
              simp only [List.set, emptySquares, List.filterMap_cons] at hih ⊢
              simpa using hih

/-! ### The selection scan always picks a listed candidate -/

theorem foldl_stepBest_isSome (better : Int → Int → Bool) :
    ∀ (l : List Move) (acc : Option Move), acc.isSome →
      (l.foldl (stepBest better) acc).isSome := by
  intro l
  induction l with
  | nil => intro acc h; exact h
  | cons x t ih =>
      intro acc h
      rw [List.foldl_cons]
      apply ih
      cases acc with
      | none => cases h
      | some bm =>
          by_cases hb : better x.score bm.score = true
          · simp [stepBest, hb]
          · simp [stepBest, hb]

theorem foldl_stepBest_mem (better : Int → Int → Bool) :
    ∀ (l : List Move) (acc : Option Move) (m : Move),
      l.foldl (stepBest better) acc = some m → acc = some m ∨ m ∈ l := by
  intro l
  induction l with
  | nil => intro acc m h; exact Or.inl h
  | cons x t ih =>
      intro acc m h
      rw [List.foldl_cons] at h
      rcases ih _ m h with hacc | hmem
      · cases acc with
        | none =>
            injection hacc with hacc
            rw [← hacc]
            exact Or.inr (List.mem_cons_self x t)
        | some bm =>
            by_cases hb : better x.score bm.score = true
            · simp only [stepBest, hb, if_true] at hacc
              injection hacc with hacc
              rw [← hacc]
              exact Or.inr (List.mem_cons_self x t)
            · simp only [stepBest, hb, if_false] at hacc
              exact Or.inl hacc
      · exact Or.inr (List.mem_cons_of_mem x hmem)

/-- On a non-empty move list, the selection scan returns one of the listed
moves (for either player). -/
theorem selectBest_isSome_mem {p : Player} {l : List Move} (h : l ≠ []) :
    ∃ m, selectBest p l = some m ∧ m ∈ l := by
  obtain ⟨x, t, rfl⟩ := List.exists_cons_of_ne_nil h
  unfold selectBest
  by_cases hp : p = aiPlayer
  · rw [if_pos hp, List.foldl_cons]
    have hstep : stepBest (fun a b => decide (b < a)) none x = some x := rfl
    rw [hstep]
    obtain ⟨m, hm⟩ := Option.isSome_iff_exists.1
      (foldl_stepBest_isSome (fun a b => decide (b < a)) t (some x) rfl)
    refine ⟨m, hm, ?_⟩
    rcases foldl_stepBest_mem _ t (some x) m hm with hacc | hmem
    · injection hacc with hacc
      rw [← hacc]
      exact List.mem_cons_self x t
    · exact List.mem_cons_of_mem x hmem
  · rw [if_neg hp, List.foldl_cons]
    have hstep : stepBest (fun a b => decide (a < b)) none x = some x := rfl
    rw [hstep]
    obtain ⟨m, hm⟩ := Option.isSome_iff_exists.1
      (foldl_stepBest_isSome (fun a b => decide (a < b)) t (some x) rfl)
    refine ⟨m, hm, ?_⟩
    rcases foldl_stepBest_mem _ t (some x) m hm with hacc | hmem
    · injection hacc with hacc
      rw [← hacc]
      exact List.mem_cons_self x t
    · exact List.mem_cons_of_mem x hmem

/-! ### Totality and well-formedness of `minimax` on invariant boards -/

/-- The move-collection loop, on a board satisfying the representation
invariant and given enough fuel for the recursive calls, succeeds, restores
the board, and produces one move per spot whose recorded `index` is the
spot's own number. -/
theorem minimaxLoop_total (fuel : Nat) (p : Player)
    (hmm : ∀ (b0 : Board) (q : Player), ReprInv b0 → (emptySquares b0).length < fuel →
      ∃ r, minimax fuel b0 q = some (r, b0)) :
    ∀ (spots : List Nat) (b : Board), ReprInv b → (emptySquares b).length ≤ fuel →
      (∀ n ∈ spots, b.get? n = some (Cell.num n)) →
      ∃ ms, minimaxLoop (minimax fuel) p spots b = some (ms, b) ∧
        ms.length = spots.length ∧
        ∀ mv ∈ ms, ∃ n ∈ spots, mv.index = some (Cell.num n) := by
  intro spots
  induction spots with
  | nil =>
      intro b _ _ _
      exact ⟨[], rfl, rfl, fun mv hmv => absurd hmv (List.not_mem_nil mv)⟩
  | cons n rest ih =>
      intro b hinv hlen hsp
      have hn : b.get? n = some (Cell.num n) := hsp n (List.mem_cons_self n rest)
      have hmem : n ∈ emptySquares b := mem_emptySquares.2 (List.mem_iff_get?.2 ⟨n, hn⟩)
      have hlen1 : 1 ≤ (emptySquares b).length := List.length_pos.2 (List.ne_nil_of_mem hmem)
      have hinv1 : ReprInv (b.set n (Cell.mark p)) := reprInv_set_mark hinv n p
      have hes1 : (emptySquares (b.set n (Cell.mark p))).length + 1 = (emptySquares b).length :=
        emptySquares_set_mark b n p n hn
      obtain ⟨r, hr⟩ := hmm (b.set n (Cell.mark p)) p.other hinv1 (by omega)
      have hgetD : b.getD n (Cell.num n) = Cell.num n := board_getD_of_get? hn _
      have hundo : (b.set n (Cell.mark p)).set n (Cell.num n) = b := by
        rw [List.set_set, board_set_of_get? hn]
      obtain ⟨ms, hms, hlms, hmv⟩ :=
        ih b hinv hlen (fun x hx => hsp x (List.mem_cons_of_mem n hx))
      refine ⟨⟨some (Cell.num n), r.score⟩ :: ms, ?_, by simp [hlms], ?_⟩
      · simp only [minimaxLoop, hgetD, hr, hundo, hms]
      · intro mv hmvm
        rcases List.mem_cons.1 hmvm with rfl | hmemv
        · exact ⟨n, List.mem_cons_self n rest, rfl⟩
        · obtain ⟨x, hx, hxe⟩ := hmv mv hmemv
          exact ⟨x, List.mem_cons_of_mem n hx, hxe⟩

/-- On a board satisfying the representation invariant, `minimax` with fuel
exceeding the number of empty cells always returns: the board comes back
unchanged, a recorded move index (when present) is the stored number of an
empty cell, and on a non-terminal board an index is always present. -/
theorem minimax_total :
    ∀ (fuel : Nat) (b : Board) (p : Player), ReprInv b →
      (emptySquares b).length < fuel →
      ∃ m, minimax fuel b p = some (m, b) ∧
        (m.index = none ∨ ∃ n, m.index = some (Cell.num n) ∧ b.get? n = some (Cell.num n)) ∧
        (¬ (checkWin b huPlayer).isSome = true → ¬ (checkWin b aiPlayer).isSome = true →
          (emptySquares b).length ≠ 0 →
          ∃ n, m.index = some (Cell.num n) ∧ b.get? n = some (Cell.num n)) := by
  intro fuel
  induction fuel with
  | zero => intro b p _ h; omega
  | succ fuel ih =>
      intro b p hinv hlen
      by_cases h1 : (checkWin b huPlayer).isSome = true
      · refine ⟨⟨none, -10⟩, ?_, Or.inl rfl, fun hX _ _ => absurd h1 hX⟩
        simp only [minimax, if_pos h1]
      · by_cases h2 : (checkWin b aiPlayer).isSome = true
        · refine ⟨⟨none, 10⟩, ?_, Or.inl rfl, fun _ hO _ => absurd h2 hO⟩
          simp only [minimax, if_neg h1, if_pos h2]
        · by_cases h3 : (emptySquares b).length = 0
          · refine ⟨⟨none, 0⟩, ?_, Or.inl rfl, fun _ _ hne => absurd h3 hne⟩
            simp only [minimax, if_neg h1, if_neg h2, if_pos h3]
          · have hmm : ∀ (b0 : Board) (q : Player), ReprInv b0 →
                (emptySquares b0).length < fuel → ∃ r, minimax fuel b0 q = some (r, b0) := by
              intro b0 q h0 hl0
              obtain ⟨r, hr, _, _⟩ := ih b0 q h0 hl0
              exact ⟨r, hr⟩
            obtain ⟨ms, hms, hlms, hmv⟩ :=
              minimaxLoop_total fuel p hmm (emptySquares b) b hinv (by omega)
                (fun n hn => emptySquares_pos hinv hn)
            have hne : ms ≠ [] := by
              intro hnil
              rw [hnil] at hlms
              exact h3 (by simpa using hlms.symm)
            obtain ⟨m, hsel, hmemm⟩ := selectBest_isSome_mem (p := p) hne
            obtain ⟨n, hn, hni⟩ := hmv m hmemm
            refine ⟨m, ?_, ?_, ?_⟩
            · simp only [minimax, if_neg h1, if_neg h2, if_neg h3, hms, hsel]
            · exact Or.inr ⟨n, hni, emptySquares_pos hinv hn⟩
            · intro _ _ _
              exact ⟨n, hni, emptySquares_pos hinv hn⟩

/-! ### The selection scan keeps the first optimum -/

/-- Characterization of the JS selection loop run with accumulator `bm`:
the result is the first element of `bm :: t` such that no element at all is
strictly `better` and every earlier element is strictly worse. -/
theorem foldl_stepBest_spec (better : Int → Int → Bool)
    (hirr : ∀ a, better a a = false)
    (htrans : ∀ a b c, better a b = true → better b c = true → better a c = true)
    (hcompat : ∀ a b c, better a b = true → better c b = false → better a c = true) :
    ∀ (t : List Move) (bm m : Move),
      t.foldl (stepBest better) (some bm) = some m →
      ∃ i, (bm :: t).get? i = some m ∧
        (∀ j mj, (bm :: t).get? j = some mj → better mj.score m.score = false) ∧
        (∀ j mj, j < i → (bm :: t).get? j = some mj → better m.score mj.score = true) := by
  intro t
  induction t with
  | nil =>
      intro bm m h
      injection h with h
      subst h
      refine ⟨0, rfl, ?_, ?_⟩
      · intro j mj hj
        cases j with
        | zero =>
            injection hj with hj
            subst hj
            exact hirr _
        | succ j' => cases hj
      · intro j mj hj _
        cases hj
  | cons x t ih =>
      intro bm m h
      rw [List.foldl_cons] at h
      by_cases hb : better x.score bm.score = true
      · rw [show stepBest better (some bm) x = some x by simp [stepBest, hb]] at h
        obtain ⟨i, hget, hc1, hc2⟩ := ih x m h
        have hxm : better x.score m.score = false := hc1 0 x rfl
        refine ⟨i + 1, hget, ?_, ?_⟩
        · intro j mj hj
          cases j with
          | zero =>
              injection hj with hj
              subst hj
              cases hBM : better bm.score m.score with
              | false => rfl
              | true =>
                  have hx : better x.score m.score = true := htrans _ _ _ hb hBM
                  rw [hxm] at hx
                  exact Bool.noConfusion hx
          | succ j' => exact hc1 j' mj hj
        · intro j mj hj hgj
          cases j with
          | zero =>
              injection hgj with hgj
              subst hgj
              cases i with
              | zero =>
                  injection hget with hget
                  subst hget
                  exact hb
              | succ i' =>
                  have hmx : better m.score x.score = true :=
                    hc2 0 x (Nat.succ_pos i') rfl
                  exact htrans _ _ _ hmx hb
          | succ j' => exact hc2 j' mj (by omega) hgj
      · have hbf : better x.score bm.score = false := Bool.eq_false_iff.2 hb
        rw [show stepBest better (some bm) x = some bm by simp [stepBest, hbf]] at h
        obtain ⟨i, hget, hc1, hc2⟩ := ih bm m h
        cases i with
        | zero =>
            injection hget with hget
            subst hget
            refine ⟨0, rfl, ?_, ?_⟩
            · intro j mj hj
              cases j with
              | zero =>
                  injection hj with hj
                  subst hj
                  exact hirr _
              | succ j' =>
                  cases j' with
                  | zero =>
                      injection hj with hj
                      subst hj
                      exact hbf
                  | succ j'' => exact hc1 (j'' + 1) mj hj
            · intro j mj hj _
              cases hj
        | succ i' =>
            have hmbm : better m.score bm.score = true := hc2 0 bm (Nat.succ_pos i') rfl
            have hxmf : better x.score m.score = false := by
              cases hX : better x.score m.score with
              | false => rfl
              | true =>
                  have := htrans _ _ _ hX hmbm
                  rw [hbf] at this
                  exact Bool.noConfusion this
            refine ⟨i' + 2, hget, ?_, ?_⟩
            · intro j mj hj
              cases j with
              | zero =>
                  injection hj with hj
                  subst hj
                  exact hc1 0 bm rfl
              | succ j' =>
                  cases j' with
                  | zero =>
                      injection hj with hj
                      subst hj
                      exact hxmf
                  | succ j'' => exact hc1 (j'' + 1) mj hj
            · intro j mj hj hgj
              cases j with
              | zero =>
                  injection hgj with hgj
                  subst hgj
                  exact hmbm
              | succ j' =>
                  cases j' with
                  | zero =>
                      injection hgj with hgj
                      subst hgj
                      exact hcompat _ _ _ hmbm hbf
                  | succ j'' => exact hc2 (j'' + 1) mj (by omega) hgj

/-- The maximizer branch of the selection: the chosen move has the greatest
score and is the first to attain it (scans in list order). -/
theorem selectBest_ai_spec {l : List Move} {m : Move}
    (h : selectBest aiPlayer l = some m) :
    ∃ i, l.get? i = some m ∧
      (∀ j mj, l.get? j = some mj → mj.score ≤ m.score) ∧
      (∀ j mj, j < i → l.get? j = some mj → mj.score < m.score) := by
  cases l with
  | nil => cases h
  | cons x t =>
      rw [selectBest, if_pos rfl, List.foldl_cons,
        show stepBest (fun a b => decide (b < a)) none x = some x from rfl] at h
      obtain ⟨i, hget, hc1, hc2⟩ :=
        foldl_stepBest_spec (fun a b => decide (b < a))
          (fun a => by simp)
          (fun a b c h1 h2 => by simp at h1 h2 ⊢; omega)
          (fun a b c h1 h2 => by simp at h1 h2 ⊢; omega)
          t x m h
      refine ⟨i, hget, ?_, ?_⟩
      · intro j mj hj
        have := hc1 j mj hj
        simpa using this
      · intro j mj hj hgj
        have := hc2 j mj hj hgj
        simpa using this

/-- The minimizer branch of the selection: the chosen move has the smallest
score and is the first to attain it (scans in list order). -/
theorem selectBest_hu_spec {l : List Move} {m : Move}
    (h : selectBest huPlayer l = some m) :
    ∃ i, l.get? i = some m ∧
      (∀ j mj, l.get? j = some mj → m.score ≤ mj.score) ∧
      (∀ j mj, j < i → l.get? j = some mj → m.score < mj.score) := by
  cases l with
  | nil => cases h
  | cons x t =>
      rw [selectBest, if_neg (by intro hXO; exact Player.noConfusion hXO), List.foldl_cons,
        show stepBest (fun a b => decide (a < b)) none x = some x from rfl] at h
      obtain ⟨i, hget, hc1, hc2⟩ :=
        foldl_stepBest_spec (fun a b => decide (a < b))
          (fun a => by simp)
          (fun a b c h1 h2 => by simp at h1 h2 ⊢; omega)
          (fun a b c h1 h2 => by simp at h1 h2 ⊢; omega)
          t x m h
      refine ⟨i, hget, ?_, ?_⟩
      · intro j mj hj
        have := hc1 j mj hj
        simpa using this
      · intro j mj hj hgj
        have := hc2 j mj hj hgj
        simpa using this

/-! ### `emptySquares` lists cell indices in strictly increasing order -/

theorem emptySquares_sorted_aux :
    ∀ (b : Board) (off : Nat),
      (∀ j k, b.get? j = some (Cell.num k) → k = j + off) →
      List.Pairwise (· < ·) (emptySquares b) ∧ ∀ x ∈ emptySquares b, off ≤ x := by
  intro b
  induction b with
  | nil =>
      intro off _
      exact ⟨List.Pairwise.nil, fun x hx => absurd hx (List.not_mem_nil x)⟩
  | cons c t ih =>
      intro off hoff
      have hofft : ∀ j k, t.get? j = some (Cell.num k) → k = j + (off + 1) := by
        intro j k hj
        have := hoff (j + 1) k hj
        omega
      obtain ⟨hpw, hbd⟩ := ih (off + 1) hofft
      cases c with
      | num mval =>
          have hm : mval = off := by
            have := hoff 0 mval rfl
            omega
          subst hm
          constructor
          · rw [show emptySquares (Cell.num mval :: t) = mval :: emptySquares t from rfl,
              List.pairwise_cons]
            exact ⟨fun x hx => by have := hbd x hx; omega, hpw⟩
          · intro x hx
            rw [show emptySquares (Cell.num mval :: t) = mval :: emptySquares t from rfl] at hx
            rcases List.mem_cons.1 hx with rfl | hx'
            · omega
            · have := hbd x hx'
              omega
      | mark q =>
          rw [show emptySquares (Cell.mark q :: t) = emptySquares t from rfl]
          exact ⟨hpw, fun x hx => by have := hbd x hx; omega⟩

/-- On an invariant board, the spots `minimax` scans are in strictly
increasing cell-index order. -/
theorem emptySquares_sorted {b : Board} (hb : ReprInv b) :
    List.Pairwise (· < ·) (emptySquares b) :=
  (emptySquares_sorted_aux b 0 (fun j k hj => by have := hb j k hj; omega)).1

/-! ### Mark counts, win preservation, and the turn functions -/

theorem count_set_mark :
    ∀ (b : Board) (n k : Nat) (p q : Player), b.get? n = some (Cell.num k) →
      (b.set n (Cell.mark p)).count (Cell.mark q) =
        b.count (Cell.mark q) + (if q = p then 1 else 0) := by
  intro b
  induction b with
  | nil => intro n k p q h; cases h
  | cons c t ih =>
      intro n k p q h
      cases n with
      | zero =>
          injection h with h
          subst h
          by_cases hq : q = p
          · subst hq
            simp [List.count_cons]
          · simp [List.count_cons, hq, Ne.symm hq]
      | succ mi =>
          have hih := ih mi k p q h
          simp only [List.set, List.count_cons, hih]
          omega

/-- Placing one player's mark cannot create a win for the other player. -/
theorem checkWin_none_set_other {b : Board} {q p : Player} (hq : q ≠ p)
    (h : checkWin b q = none) (i : Nat) :
    checkWin (b.set i (Cell.mark p)) q = none := by
  cases hcw : checkWin (b.set i (Cell.mark p)) q with
  | none => rfl
  | some w =>
      exfalso
      have hs : (checkWin (b.set i (Cell.mark p)) q).isSome = true := by rw [hcw]; rfl
      obtain ⟨wn, hwn, hall⟩ := checkWin_isSome_iff.1 hs
      have hallb : ∀ e ∈ wn, b.get? e = some (Cell.mark q) := by
        intro e he
        have hge := hall e he
        by_cases hei : e = i
        · subst hei
          by_cases hlen : e < b.length
          · rw [board_get?_set_self hlen] at hge
            injection hge with hge
            exact absurd (Cell.mark.inj hge).symm hq
          · rwa [List.set_eq_of_length_le (Nat.le_of_not_lt hlen)] at hge
        · rwa [board_get?_set_ne b hei] at hge
      have hwb : (checkWin b q).isSome = true := checkWin_isSome_iff.2 ⟨wn, hwn, hallb⟩
      rw [h] at hwb
      exact Bool.noConfusion hwb

theorem turn_board (s : GState) (i : Nat) (p : Player) :
    (turn s i p).board = s.board.set i (Cell.mark p) := by
  simp only [turn]
  split
  · rfl
  · split
    · rfl
    · rfl

/-- If the game is still active after `turn`, then the move neither won nor
filled the board, and the game was active before. -/
theorem turn_active_conds {s : GState} {i : Nat} {p : Player}
    (h : (turn s i p).gameActive = true) :
    ¬ (checkWin (s.board.set i (Cell.mark p)) p).isSome = true ∧
      (emptySquares (s.board.set i (Cell.mark p))).length ≠ 0 ∧
      s.gameActive = true := by
  simp only [turn] at h
  split at h
  · exact Bool.noConfusion h
  · split at h
    · exact Bool.noConfusion h
    · next h1 h2 => exact ⟨h1, h2, h⟩

/-- `turn` leaves `gameActive` off exactly when the move won, filled the
board, or the flag was already off. -/
theorem turn_gameActive_iff (s : GState) (i : Nat) (p : Player) :
    (turn s i p).gameActive = false ↔
      ((checkWin (s.board.set i (Cell.mark p)) p).isSome = true ∨
        (emptySquares (s.board.set i (Cell.mark p))).length = 0 ∨
        s.gameActive = false) := by
  simp only [turn]
  split
  · next h1 => exact ⟨fun _ => Or.inl h1, fun _ => rfl⟩
  · split
    · next h2 => exact ⟨fun _ => Or.inr (Or.inl h2), fun _ => rfl⟩
    · next h1 h2 =>
        constructor
        · intro h
          exact Or.inr (Or.inr h)
        · rintro (h | h | h)
          · exact absurd h h1
          · exact absurd h h2
          · exact h

/-- A click that fails the guard (inactive game or occupied cell) changes
nothing. -/
theorem turnClick_rejected {s : GState} {i : Nat}
    (h : ¬ (s.gameActive && isNumberCell (s.board.get? i)) = true) :
    turnClick s i = s := by
  simp only [turnClick, if_neg h]

/-! ### The fresh board -/

theorem reprInv_startBoard : ReprInv startBoard := by
  intro j k h
  rw [show startBoard = [Cell.num 0, Cell.num 1, Cell.num 2, Cell.num 3, Cell.num 4,
    Cell.num 5, Cell.num 6, Cell.num 7, Cell.num 8] from rfl] at h
  rcases j with _|_|_|_|_|_|_|_|_|j <;> simp_all

theorem countMark_startBoard (p : Player) : countMark startBoard p = 0 := by
  cases p <;> rfl

theorem checkWin_startBoard (p : Player) : checkWin startBoard p = none := by
  cases p <;> rfl

/-! ### Every reachable state is good -/

theorem reach_good : ∀ s, Reach s → GoodState s := by
  intro s hs
  induction hs with
  | start =>
      refine ⟨reprInv_startBoard, rfl, ?_, ?_, ?_⟩
      · rw [countMark_startBoard, countMark_startBoard]
      · rw [countMark_startBoard, countMark_startBoard]
        omega
      · intro _
        exact ⟨by rw [countMark_startBoard, countMark_startBoard],
          checkWin_startBoard _, checkWin_startBoard _⟩
  | click s i hr ihg =>
      obtain ⟨hinv, hlen, hle1, hle2, hact⟩ := ihg
      by_cases hcond : (s.gameActive && isNumberCell (s.board.get? i)) = true
      · have hcond2 : s.gameActive = true ∧ isNumberCell (s.board.get? i) = true := by
          rw [Bool.and_eq_true] at hcond
          exact hcond
        have hcond : (s.gameActive && isNumberCell (s.board.get? i)) = true := by
          rw [Bool.and_eq_true]
          exact hcond2
        have hactive : s.gameActive = true := hcond2.1
        have hnum : isNumberCell (s.board.get? i) = true := hcond2.2
        obtain ⟨hXO, hnoX, hnoO⟩ := hact hactive
        have higet : s.board.get? i = some (Cell.num i) := by
          cases hg : s.board.get? i with
          | none => rw [hg] at hnum; exact Bool.noConfusion hnum
          | some c =>
              cases c with
              | num k =>
                  have hki := hinv i k hg
                  rw [hki]
              | mark q => rw [hg] at hnum; exact Bool.noConfusion hnum
        -- facts about the board after the human move
        have hinv1 : ReprInv (s.board.set i (Cell.mark huPlayer)) :=
          reprInv_set_mark hinv i huPlayer
        have hlen1 : (s.board.set i (Cell.mark huPlayer)).length = 9 := by
          rw [List.length_set]; exact hlen
        have hcntX1 : countMark (s.board.set i (Cell.mark huPlayer)) huPlayer =
            countMark s.board huPlayer + 1 := by
          have := count_set_mark s.board i i huPlayer huPlayer higet
          simpa [countMark] using this
        have hcntO1 : countMark (s.board.set i (Cell.mark huPlayer)) aiPlayer =
            countMark s.board aiPlayer := by
          have := count_set_mark s.board i i huPlayer aiPlayer higet
          simpa [countMark, aiPlayer, huPlayer] using this
        have hnoO1 : checkWin (s.board.set i (Cell.mark huPlayer)) aiPlayer = none :=
          checkWin_none_set_other (fun h => Player.noConfusion h) hnoO i
        cases hga1 : (turn s i huPlayer).gameActive with
        | false =>
            have hres : turnClick s i = turn s i huPlayer := by
              simp only [turnClick, if_pos hcond, hga1, Bool.false_eq_true, if_false]
            rw [hres]
            refine ⟨?_, ?_, ?_, ?_, ?_⟩
            · rw [turn_board]; exact hinv1
            · rw [turn_board]; exact hlen1
            · rw [turn_board]
              show countMark _ aiPlayer ≤ countMark _ huPlayer
              rw [hcntX1, hcntO1]
              omega
            · rw [turn_board]
              show countMark _ huPlayer ≤ countMark _ aiPlayer + 1
              rw [hcntX1, hcntO1]
              omega
            · intro hga
              rw [hga1] at hga
              exact Bool.noConfusion hga
        | true =>
            obtain ⟨hA, hB, _⟩ := turn_active_conds hga1
            have hfuel : (emptySquares (s.board.set i (Cell.mark huPlayer))).length <
                searchFuel := by
              have hfm : (emptySquares (s.board.set i (Cell.mark huPlayer))).length ≤
                  (s.board.set i (Cell.mark huPlayer)).length :=
                List.length_filterMap_le _ _
              rw [hlen1] at hfm
              rw [show searchFuel = 10 from rfl]
              omega
            obtain ⟨m, hmeq, _, hvalid⟩ :=
              minimax_total searchFuel (s.board.set i (Cell.mark huPlayer)) aiPlayer hinv1 hfuel
            obtain ⟨n, hidx, hgetn⟩ := hvalid hA (by rw [hnoO1]; simp) hB
            have hb1eq : (turn s i huPlayer).board = s.board.set i (Cell.mark huPlayer) :=
              turn_board s i huPlayer
            have hres : turnClick s i =
                turn ⟨s.board.set i (Cell.mark huPlayer), true⟩ n aiPlayer := by
              simp only [turnClick, if_pos hcond, hb1eq, hmeq, hidx, hga1,
                eq_self_iff_true, if_true]
            rw [hres]
            -- facts about the board after the AI move
            have hinv2 : ReprInv ((s.board.set i (Cell.mark huPlayer)).set n
                (Cell.mark aiPlayer)) := reprInv_set_mark hinv1 n aiPlayer
            have hcntX2 : countMark ((s.board.set i (Cell.mark huPlayer)).set n
                (Cell.mark aiPlayer)) huPlayer =
                countMark (s.board.set i (Cell.mark huPlayer)) huPlayer := by
              have := count_set_mark (s.board.set i (Cell.mark huPlayer)) n n
                aiPlayer huPlayer hgetn
              simpa [countMark, aiPlayer, huPlayer] using this
            have hcntO2 : countMark ((s.board.set i (Cell.mark huPlayer)).set n
                (Cell.mark aiPlayer)) aiPlayer =
                countMark (s.board.set i (Cell.mark huPlayer)) aiPlayer + 1 := by
              have := count_set_mark (s.board.set i (Cell.mark huPlayer)) n n
                aiPlayer aiPlayer hgetn
              simpa [countMark] using this
            have hnoX1 : checkWin (s.board.set i (Cell.mark huPlayer)) huPlayer = none :=
              Option.not_isSome_iff_eq_none.1 hA
            have hnoX2 : checkWin ((s.board.set i (Cell.mark huPlayer)).set n
                (Cell.mark aiPlayer)) huPlayer = none :=
              checkWin_none_set_other (fun h => Player.noConfusion h) hnoX1 n
            refine ⟨?_, ?_, ?_, ?_, ?_⟩
            · rw [turn_board]; exact hinv2
            · rw [turn_board]
              show (List.set _ _ _).length = 9
              rw [List.length_set]
              exact hlen1
            · rw [turn_board]
              show countMark _ aiPlayer ≤ countMark _ huPlayer
              rw [hcntX2, hcntO2, hcntX1, hcntO1]
              omega
            · rw [turn_board]
              show countMark _ huPlayer ≤ countMark _ aiPlayer + 1
              rw [hcntX2, hcntO2, hcntX1, hcntO1]
              omega
            · intro hga2
              obtain ⟨hA2, _, _⟩ := turn_active_conds hga2
              refine ⟨?_, ?_, ?_⟩
              · rw [turn_board]
                show countMark _ huPlayer = countMark _ aiPlayer
                rw [hcntX2, hcntO2, hcntX1, hcntO1]
                omega
              · rw [turn_board]
                exact hnoX2
              · rw [turn_board]
                exact Option.not_isSome_iff_eq_none.1 hA2
      · rw [turnClick_rejected hcond]
        exact ⟨hinv, hlen, hle1, hle2, hact⟩

/-! ### Divergence of `minimax` on a non-aliased board copy -/

theorem bDiv_set_cases (q : Player) (bb : Board)
    (hbb : bb = bDiv ∨ bb = bDivX ∨ bb = bDivO) :
    bb.set 1 (Cell.mark q) = bDivX ∨ bb.set 1 (Cell.mark q) = bDivO := by
  rcases hbb with rfl | rfl | rfl <;> cases q
  · exact Or.inl rfl
  · exact Or.inr rfl
  · exact Or.inl rfl
  · exact Or.inr rfl
  · exact Or.inl rfl
  · exact Or.inr rfl

/-- When `minimax` is handed a copy of the global board instead of the global
array itself, `emptySquares()` keeps reporting the same free spot forever:
on `bDiv` the recursion exhausts any amount of fuel, i.e. never returns. -/
theorem minimaxCopy_diverges :
    ∀ (fuel : Nat) (p : Player) (bb : Board),
      bb = bDiv ∨ bb = bDivX ∨ bb = bDivO →
      minimaxCopy fuel bDiv bb p = none := by
  intro fuel
  induction fuel with
  | zero => intro p bb _; rfl
  | succ fuel ih =>
      intro p bb hbb
      have hrec : minimaxCopy fuel bDiv (bb.set 1 (Cell.mark p)) p.other = none := by
        rcases bDiv_set_cases p bb hbb with h | h
        · rw [h]
          exact ih p.other bDivX (Or.inr (Or.inl rfl))
        · rw [h]
          exact ih p.other bDivO (Or.inr (Or.inr rfl))
      have hloop : minimaxLoop (minimaxCopy fuel bDiv) p [1] bb = none := by
        simp only [minimaxLoop, hrec]
      rcases hbb with rfl | rfl | rfl <;>
        simp only [minimaxCopy] <;>
        rw [if_neg (by decide), if_neg (by decide), if_neg (by decide),
          show emptySquares bDiv = [1] from rfl, hloop]

theorem reprInv_bDiv : ReprInv bDiv := by
  intro j k h
  rw [show bDiv = [Cell.mark Player.X, Cell.num 1, Cell.mark Player.O,
    Cell.mark Player.O, Cell.mark Player.O, Cell.mark Player.X,
    Cell.mark Player.X, Cell.mark Player.X, Cell.mark Player.O] from rfl] at h
  rcases j with _|_|_|_|_|_|_|_|_|j <;> simp_all

/-! ### The claims -/

/-- Claim C1: for the board `[X,X,Empty,O,O,Empty,Empty,Empty,Empty]` with
the AI (O) to move, `bestSpot` (top-level minimax) returns cell index 2,
blocking the human's row-0 win (and hands the board back unchanged). -/
theorem C1_bestSpot_blocks_row0 :
    bestSpot scenarioBoard = some (some (Cell.num 2), scenarioBoard) := by
  rfl

/-- Claim C2: at every recursion level (any remaining fuel), before any move
generation, terminal states are scored in the order human win → −10, else AI
win → +10, else full board → 0; the flat values do not depend on the depth. -/
theorem C2_terminal_scores (fuel : Nat) (b : Board) (p : Player) :
    ((checkWin b huPlayer).isSome = true →
      minimax (fuel + 1) b p = some (⟨none, -10⟩, b)) ∧
    ((checkWin b huPlayer).isSome = false → (checkWin b aiPlayer).isSome = true →
      minimax (fuel + 1) b p = some (⟨none, 10⟩, b)) ∧
    ((checkWin b huPlayer).isSome = false → (checkWin b aiPlayer).isSome = false →
      (emptySquares b).length = 0 →
      minimax (fuel + 1) b p = some (⟨none, 0⟩, b)) := by
  refine ⟨?_, ?_, ?_⟩
  · intro h1
    simp only [minimax, if_pos h1]
  · intro h1 h2
    have h1' : ¬ (checkWin b huPlayer).isSome = true := by simp [h1]
    simp only [minimax, if_neg h1', if_pos h2]
  · intro h1 h2 h3
    have h1' : ¬ (checkWin b huPlayer).isSome = true := by simp [h1]
    have h2' : ¬ (checkWin b aiPlayer).isSome = true := by simp [h2]
    simp only [minimax, if_neg h1', if_neg h2', if_pos h3]

theorem C2_witness :
    minimax 1 bWinX aiPlayer = some (⟨none, -10⟩, bWinX) ∧
    minimax 1 bWinO huPlayer = some (⟨none, 10⟩, bWinO) ∧
    minimax 1 bDivX aiPlayer = some (⟨none, 0⟩, bDivX) :=
  ⟨(C2_terminal_scores 0 bWinX aiPlayer).1 (by decide),
   (C2_terminal_scores 0 bWinO huPlayer).2.1 (by decide) (by decide),
   (C2_terminal_scores 0 bDivX aiPlayer).2.2 (by decide) (by decide) (by decide)⟩

/-- Claim C3: with the AI to move the scan keeps the candidate with the
strictly greatest score, with the human to move the strictly smallest, in
both cases the first candidate attaining the optimum in scan order; and the
candidate spots are scanned in increasing cell-index order. -/
theorem C3_selection_rule :
    (∀ (l : List Move) (m : Move), selectBest aiPlayer l = some m →
      ∃ i, l.get? i = some m ∧
        (∀ j mj, l.get? j = some mj → mj.score ≤ m.score) ∧
        (∀ j mj, j < i → l.get? j = some mj → mj.score < m.score)) ∧
    (∀ (l : List Move) (m : Move), selectBest huPlayer l = some m →
      ∃ i, l.get? i = some m ∧
        (∀ j mj, l.get? j = some mj → m.score ≤ mj.score) ∧
        (∀ j mj, j < i → l.get? j = some mj → m.score < mj.score)) ∧
    (∀ b : Board, ReprInv b → List.Pairwise (· < ·) (emptySquares b)) :=
  ⟨fun _ _ h => selectBest_ai_spec h,
   fun _ _ h => selectBest_hu_spec h,
   fun _ hb => emptySquares_sorted hb⟩

theorem C3_witness :
    (∃ i, ([⟨none, 0⟩, ⟨none, 10⟩] : List Move).get? i = some ⟨none, 10⟩ ∧
      (∀ j mj, ([⟨none, 0⟩, ⟨none, 10⟩] : List Move).get? j = some mj →
        mj.score ≤ (⟨none, 10⟩ : Move).score) ∧
      (∀ j mj, j < i → ([⟨none, 0⟩, ⟨none, 10⟩] : List Move).get? j = some mj →
        mj.score < (⟨none, 10⟩ : Move).score)) ∧
    (∃ i, ([⟨none, 0⟩, ⟨none, 10⟩] : List Move).get? i = some ⟨none, 0⟩ ∧
      (∀ j mj, ([⟨none, 0⟩, ⟨none, 10⟩] : List Move).get? j = some mj →
        (⟨none, 0⟩ : Move).score ≤ mj.score) ∧
      (∀ j mj, j < i → ([⟨none, 0⟩, ⟨none, 10⟩] : List Move).get? j = some mj →
        (⟨none, 0⟩ : Move).score < mj.score)) ∧
    List.Pairwise (· < ·) (emptySquares startBoard) :=
  ⟨C3_selection_rule.1 _ _ (by rfl),
   C3_selection_rule.2.1 _ _ (by rfl),
   C3_selection_rule.2.2 startBoard reprInv_startBoard⟩

/-- Claim C4: a `minimax` (evaluate) call leaves the board it was given
bit-identical: whenever it returns, the board it hands back is the board it
received, for every board, player and fuel. -/
theorem C4_minimax_restores (fuel : Nat) (b : Board) (p : Player) (m : Move) (b' : Board)
    (h : minimax fuel b p = some (m, b')) : b' = b :=
  minimax_restore fuel b p m b' h

theorem C4_witness :
    minimax searchFuel scenarioBoard aiPlayer =
      some (⟨some (Cell.num 2), 10⟩, scenarioBoard) ∧
    scenarioBoard = scenarioBoard :=
  ⟨by rfl, C4_minimax_restores searchFuel scenarioBoard aiPlayer
    ⟨some (Cell.num 2), 10⟩ scenarioBoard (by rfl)⟩

/-- Claim C5 counterexample: taken as ordered triples in the claimed
enumeration, the table differs from the claim: entry 7 of the source table
is `[6,4,2]`, not `(2,4,6)`. -/
theorem C5_counterexample :
    winCombos ≠ specWinLines ∧ winCombos.get? 7 = some [6, 4, 2] :=
  ⟨by decide, rfl⟩

/-- Claim C5 (amended): the win table has exactly 8 fixed lines — 3 rows,
3 columns, 2 diagonals — in the claimed enumeration order when each line is
read as its set of cells; the second diagonal is stored in the order
`(6,4,2)` rather than `(2,4,6)`. (A Lean `def`, like the JS `const` table
that is never written to, is immutable.) -/
theorem C5_win_table :
    winCombos.length = 8 ∧
    winCombos.map (fun w => w.toFinset) = specWinLines.map (fun w => w.toFinset) ∧
    winCombos.get? 7 = some [6, 4, 2] :=
  ⟨rfl, by decide, rfl⟩

/-- Claim C6: a click whose target cell is occupied or which arrives when the
game is over is rejected with no state change at all; an accepted `turn`
updates the board and the outcome together: the mark is written and
`gameActive` goes off exactly when the move wins, fills the board, or the
flag was already off. -/
theorem C6_move_validation :
    (∀ (s : GState) (i : Nat),
      ¬ (s.gameActive && isNumberCell (s.board.get? i)) = true → turnClick s i = s) ∧
    (∀ (s : GState) (i : Nat) (p : Player),
      (turn s i p).board = s.board.set i (Cell.mark p) ∧
      ((turn s i p).gameActive = false ↔
        ((checkWin (s.board.set i (Cell.mark p)) p).isSome = true ∨
          (emptySquares (s.board.set i (Cell.mark p))).length = 0 ∨
          s.gameActive = false))) :=
  ⟨fun _ _ h => turnClick_rejected h,
   fun s i p => ⟨turn_board s i p, turn_gameActive_iff s i p⟩⟩

theorem C6_witness :
    turnClick ⟨startBoard, false⟩ 0 = ⟨startBoard, false⟩ ∧
    turnClick ⟨bDivX, true⟩ 0 = ⟨bDivX, true⟩ :=
  ⟨C6_move_validation.1 ⟨startBoard, false⟩ 0 (by decide),
   C6_move_validation.1 ⟨bDivX, true⟩ 0 (by decide)⟩

/-- Claim C7: for every board and player, `checkWin` succeeds iff one of the
8 fixed win lines is fully marked by that player, and it returns the first
satisfied line in the fixed enumeration order. -/
theorem C7_checkWin_correct :
    ∀ (b : Board) (p : Player),
      ((checkWin b p).isSome = true ↔
        ∃ w ∈ winCombos, ∀ e ∈ w, b.get? e = some (Cell.mark p)) ∧
      (∀ i, checkWin b p = some i →
        (∃ w, winCombos.get? i = some w ∧ ∀ e ∈ w, b.get? e = some (Cell.mark p)) ∧
        (∀ j wj, j < i → winCombos.get? j = some wj →
          ∃ e ∈ wj, b.get? e ≠ some (Cell.mark p))) :=
  fun _ _ => ⟨checkWin_isSome_iff, fun _ h => checkWin_eq_some h⟩

theorem C7_witness :
    ((checkWin bWinX huPlayer).isSome = true ↔
      ∃ w ∈ winCombos, ∀ e ∈ w, bWinX.get? e = some (Cell.mark huPlayer)) ∧
    ((∃ w, winCombos.get? 0 = some w ∧ ∀ e ∈ w, bWinX.get? e = some (Cell.mark huPlayer)) ∧
      (∀ j wj, j < 0 → winCombos.get? j = some wj →
        ∃ e ∈ wj, bWinX.get? e ≠ some (Cell.mark huPlayer))) :=
  ⟨(C7_checkWin_correct bWinX huPlayer).1,
   (C7_checkWin_correct bWinX huPlayer).2 0 (by rfl)⟩

/-- Claim C8: in every state reachable from a fresh game by clicks (each
accepted human move together with the AI reply it triggers), the number of X
marks minus the number of O marks is 0 or 1. -/
theorem C8_mark_balance (s : GState) (h : Reach s) :
    countMark s.board aiPlayer ≤ countMark s.board huPlayer ∧
    countMark s.board huPlayer ≤ countMark s.board aiPlayer + 1 := by
  obtain ⟨_, _, h1, h2, _⟩ := reach_good s h
  exact ⟨h1, h2⟩

theorem C8_witness :
    countMark (GState.board ⟨startBoard, true⟩) aiPlayer ≤
      countMark (GState.board ⟨startBoard, true⟩) huPlayer ∧
    countMark (GState.board ⟨startBoard, true⟩) huPlayer ≤
      countMark (GState.board ⟨startBoard, true⟩) aiPlayer + 1 :=
  C8_mark_balance ⟨startBoard, true⟩ Reach.start

/-- Claim C9: the representation invariant of the board encoding: a stored
number is always the index of its own cell (a cell is empty iff it holds its
index); `startGame` establishes it (every cell holds its index), the undo
step of `minimax` restores the board exactly, and on an invariant board
every move index `minimax` records is the stored number of an empty cell. -/
theorem C9_representation_invariant :
    ReprInv startBoard ∧
    (∀ i, i < 9 → startBoard.get? i = some (Cell.num i)) ∧
    (∀ (fuel : Nat) (b : Board) (p : Player) (m : Move) (b' : Board),
      minimax fuel b p = some (m, b') → b' = b) ∧
    (∀ (fuel : Nat) (b : Board) (p : Player), ReprInv b →
      (emptySquares b).length < fuel →
      ∃ m, minimax fuel b p = some (m, b) ∧
        (m.index = none ∨
          ∃ n, m.index = some (Cell.num n) ∧ b.get? n = some (Cell.num n))) := by
  refine ⟨reprInv_startBoard, by decide, minimax_restore, ?_⟩
  intro fuel b p hb hl
  obtain ⟨m, heq, hvalid, _⟩ := minimax_total fuel b p hb hl
  exact ⟨m, heq, hvalid⟩

theorem C9_witness :
    startBoard.get? 0 = some (Cell.num 0) ∧
    bDivX = bDivX ∧
    (∃ m, minimax 10 bDiv aiPlayer = some (m, bDiv) ∧
      (m.index = none ∨
        ∃ n, m.index = some (Cell.num n) ∧ bDiv.get? n = some (Cell.num n))) :=
  ⟨C9_representation_invariant.2.1 0 (by decide),
   C9_representation_invariant.2.2.1 1 bDivX aiPlayer ⟨none, 0⟩ bDivX (by rfl),
   C9_representation_invariant.2.2.2 10 bDiv aiPlayer reprInv_bDiv (by decide)⟩

/-- Claim C10: `emptySquares` declares no parameter and reads the global
board, so the argument `minimax` passes is ignored; `minimax` is correct
only because `bestSpot` hands it the global board itself: run on an equal
but independent copy of `bDiv` it never returns (exhausts any fuel), while
the aliased call returns the only available move, index 1. -/
theorem C10_emptySquares_ignores_argument :
    (∀ g a a' : Board, emptySquaresCalled g a = emptySquaresCalled g a') ∧
    (∀ fuel : Nat, minimaxCopy fuel bDiv bDiv aiPlayer = none) ∧
    minimax searchFuel bDiv aiPlayer = some (⟨some (Cell.num 1), 0⟩, bDiv) :=
  ⟨fun _ _ _ => rfl,
   fun fuel => minimaxCopy_diverges fuel aiPlayer bDiv (Or.inl rfl),
   by rfl⟩

end TTT
